import Mathlib

/-!
Verification of the hotspot-detection pipeline of
`src/thermal_pipeline_hottest.py` (thermal CSV end-to-end processor).

The pipeline stages embedded here are the ones the specification's claims
are about: percentile thresholding of the smoothed gradient-magnitude
field (`np.percentile`, lines 306-307), binary morphology
(`binary_morphology`, lines 117-128, SciPy strategy: disk closing,
disk dilation, hole filling), 4-connected component labeling
(`label_components`, lines 137-159), small-component removal
(`remove_small_components`, lines 162-171), ring dilation
(`dilate_mask`, lines 174-185), per-region analysis and ranking
(`hotspot_detection`, lines 302-350).

Temperatures and gradient magnitudes are modelled as rationals.  The
upstream Gaussian smoothing and the square root in the gradient
magnitude are real-valued library computations; every claim below is
universally quantified over the input grid, so the smoothed
gradient-magnitude field `G_s` is taken as an arbitrary rational-valued
field parameter of the downstream pipeline, exactly as `hotspot_detection`
consumes it after line 305.
-/

namespace Thermal

/-- A pixel position: (row, column). -/

abbrev Pix := ℕ × ℕ

/-- Grid dimensions: `H` rows by `W` columns. -/
structure Dims where
  H : ℕ
  W : ℕ
deriving DecidableEq, Repr

/-- All in-bounds pixel positions of a grid of the given dimensions. -/
def Dims.cells (d : Dims) : Finset Pix :=
  Finset.range d.H ×ˢ Finset.range d.W

def adj (p q : Pix) : Prop :=
  (p.1 = q.1 ∧ (p.2 = q.2 + 1 ∨ q.2 = p.2 + 1)) ∨
  (p.2 = q.2 ∧ (p.1 = q.1 + 1 ∨ q.1 = p.1 + 1))

instance : DecidablePred fun pq : Pix × Pix => adj pq.1 pq.2 := by
  intro pq; unfold adj; infer_instance

instance decAdj (p q : Pix) : Decidable (adj p q) := by
  unfold adj; infer_instance

inductive Conn (P : Finset Pix) : Pix → Pix → Prop
  | refl {p : Pix} : p ∈ P → Conn P p p
  | tail {p q r : Pix} : Conn P p q → adj q r → r ∈ P → Conn P p r

def expandStep (P X : Finset Pix) : Finset Pix :=
  X ∪ P.filter fun q => ∃ p ∈ X, adj p q

/-- Reachable set: all pixels of `P` reachable from seed set `S ∩ P` by
4-adjacent steps inside `P`, computed by iterating `expandStep` until
saturation (`P.card` iterations suffice).  This is the explicit-worklist
flood fill of the source restated as a bounded fixpoint iteration: the
stack-based fill of `label_components` marks exactly this set. -/

def reach (P S : Finset Pix) : Finset Pix :=
  (expandStep P)^[P.card] (S ∩ P)

/-- Squared Euclidean distance between two pixel positions. -/
def pixDistSq (p q : Pix) : ℤ :=
  ((p.1 : ℤ) - (q.1 : ℤ)) ^ 2 + ((p.2 : ℤ) - (q.2 : ℤ)) ^ 2

/-- Integer points within Euclidean distance `r` of pixel `p` (the disk
structuring element centred at `p`, possibly reaching out of bounds). -/

def zdisk (p : Pix) (r : ℕ) : Finset (ℤ × ℤ) :=
  (Finset.Icc ((p.1 : ℤ) - r) ((p.1 : ℤ) + r) ×ˢ
   Finset.Icc ((p.2 : ℤ) - r) ((p.2 : ℤ) + r)).filter
    fun z => ((p.1 : ℤ) - z.1) ^ 2 + ((p.2 : ℤ) - z.2) ^ 2 ≤ (r : ℤ) ^ 2

/-- Binary dilation by a disk of radius `r`: a pixel is set iff some
mask pixel lies within Euclidean distance `r` of it (the disk is
symmetric, so this is SciPy `binary_dilation` with that structure). -/

def dilateD (d : Dims) (r : ℕ) (m : Finset Pix) : Finset Pix :=
  d.cells.filter fun p => ∃ q ∈ m, pixDistSq p q ≤ (r : ℤ) ^ 2

/-- Binary erosion by a disk of radius `r` with `border_value=0`: a
pixel survives iff every integer point of the disk around it is an
in-bounds mask pixel. -/

def erodeD (d : Dims) (r : ℕ) (m : Finset Pix) : Finset Pix :=
  d.cells.filter fun p =>
    ∀ z ∈ zdisk p r, ∃ q ∈ m, (q.1 : ℤ) = z.1 ∧ (q.2 : ℤ) = z.2

/-- Pixels on the border (first/last row or column) of the grid. -/
def borderPix (d : Dims) : Finset Pix :=
  d.cells.filter fun p => p.1 = 0 ∨ p.1 = d.H - 1 ∨ p.2 = 0 ∨ p.2 = d.W - 1

/-- SciPy `binary_fill_holes` with its default 4-connected structuring
element: a background pixel stays background iff it reaches the array
border through background pixels; all other background pixels are
flipped to foreground.  Embedded through the `reach` fixpoint. -/

def fill_holes (d : Dims) (m : Finset Pix) : Finset Pix :=
  d.cells.filter fun p => p ∈ m ∨ p ∉ reach (d.cells \ m) (borderPix d)

/-- Source lines 117-128: closing with a disk of radius 2 (dilation then
erosion), then dilation with a disk of radius 1, then hole filling. -/

def binary_morphology (d : Dims) (m : Finset Pix) : Finset Pix :=
  fill_holes d (dilateD d 1 (erodeD d 2 (dilateD d 2 m)))

/-- Source lines 174-185: dilation used for the background ring; a
non-positive radius returns the mask unchanged. -/

def dilate_mask (d : Dims) (m : Finset Pix) (radius : ℤ) : Finset Pix :=
  if radius ≤ 0 then m else dilateD d radius.toNat m

def comp (m : Finset Pix) (p : Pix) : Finset Pix := reach m {p}

def rowMajor (d : Dims) : List Pix :=
  (List.range d.H).flatMap fun r => (List.range d.W).map fun c => (r, c)

def scanStep (m : Finset Pix) (L : List (Finset Pix)) (p : Pix) :
    List (Finset Pix) :=
  if p ∈ m ∧ ∀ S ∈ L, p ∉ S then L ++ [comp m p] else L

/-- The list of labeled regions produced by the row-major scan of
`label_components`: the `i`-th entry is the set of pixels with label
`i + 1`. -/

def scanComps (d : Dims) (m : Finset Pix) : List (Finset Pix) :=
  (rowMajor d).foldl (scanStep m) []

/-- Label lookup: `labelFrom p L k` is the label of `p` when the regions
of `L` carry labels `k, k+1, ...`; 0 when `p` is in none of them. -/

def labelFrom (p : Pix) : List (Finset Pix) → ℕ → ℕ
  | [], _ => 0
  | S :: rest, k => if p ∈ S then k else labelFrom p rest (k + 1)

/-- Source lines 137-159: the label map (0 on background, positive
labels in discovery order) and the number of labels found. -/

def label_components (d : Dims) (m : Finset Pix) : (Pix → ℕ) × ℕ :=
  (fun p => labelFrom p (scanComps d m) 1, (scanComps d m).length)

def remove_small_components (comps : List (Finset Pix)) (min_area : ℤ) : Finset Pix :=
  (comps.filter fun S => min_area ≤ (S.card : ℤ)).foldr (· ∪ ·) ∅

/-- Ascending sort of a list of rationals. -/
def sortQ (l : List ℚ) : List ℚ := List.insertionSort (· ≤ ·) l

/-- Linear interpolation of a sorted value list at fractional rank
`pos`: with `i = floor(pos)`, the value `s[i] + frac * (s[i+1] - s[i])`
(the out-of-range upper neighbour at the top rank defaults to `s[i]`,
where the fraction is 0 anyway). -/

def percInterp (s : List ℚ) (pos : ℚ) : ℚ :=
  s.getD pos.floor.toNat 0 +
    (pos - (pos.floor.toNat : ℚ)) *
      (s.getD (pos.floor.toNat + 1) (s.getD pos.floor.toNat 0) -
        s.getD pos.floor.toNat 0)

/-- numpy percentile with linear interpolation between closest ranks
(`np.percentile`, used at source line 306): position
`q/100 * (n - 1)` into the ascending sort, interpolating between the
two neighbouring order statistics.  `none` models the exception
`np.percentile` raises when the data is empty or the percentile is
outside [0, 100]. -/

def npPercentile (l : List ℚ) (q : ℚ) : Option ℚ :=
  if l = [] ∨ q < 0 ∨ 100 < q then none
  else some (percInterp (sortQ l) (q / 100 * (((sortQ l).length : ℚ) - 1)))

/-- numpy median (`np.median`): middle element of the sorted data for
odd length, average of the two middle elements for even length; the
empty case is unreached in the source (all medians are taken of
nonempty data there). -/

def npMedian (l : List ℚ) : ℚ :=
  let s := sortQ l
  let n := s.length
  if n = 0 then 0
  else if n % 2 = 1 then s.getD (n / 2) 0
  else (s.getD (n / 2 - 1) 0 + s.getD (n / 2) 0) / 2

/-- All values of a grid-shaped field in row-major order. -/
def fieldVals (d : Dims) (f : Pix → ℚ) : List ℚ :=
  (rowMajor d).map f

/-- Source line 307: the candidate mask `M0 = G_s >= tau`. -/
def threshold_mask (d : Dims) (G : Pix → ℚ) (tau : ℚ) : Finset Pix :=
  d.cells.filter fun p => tau ≤ G p

/-- One output record of `hotspot_detection` (source lines 338-347). -/
structure Region where
  ID : ℕ
  area_px : ℕ
  Tmax_C : ℚ
  Tmean_C : ℚ
  Tbg_C : ℚ
  DeltaT_C : ℚ
  row : ℕ
  col : ℕ
deriving DecidableEq, Repr

/-- Row-major (lexicographic) order on pixel positions, the order in
which `np.argwhere` lists the coordinates of a mask. -/

def pixLe (p q : Pix) : Prop :=
  p.1 < q.1 ∨ (p.1 = q.1 ∧ p.2 ≤ q.2)

instance decPixLe : DecidableRel pixLe := fun p q => by
  unfold pixLe; infer_instance

instance : IsTrans Pix pixLe where
  trans p q r hpq hqr := by
    rcases hpq with h1 | ⟨h1, h1c⟩ <;> rcases hqr with h2 | ⟨h2, h2c⟩
    · exact Or.inl (lt_trans h1 h2)
    · exact Or.inl (h2 ▸ h1)
    · exact Or.inl (h1 ▸ h2)
    · exact Or.inr ⟨h1.trans h2, le_trans h1c h2c⟩

instance : IsAntisymm Pix pixLe where
  antisymm p q hpq hqp := by
    rcases hpq with h1 | ⟨h1, h1c⟩ <;> rcases hqp with h2 | ⟨h2, h2c⟩
    · omega
    · omega
    · omega
    · have : p.2 = q.2 := le_antisymm h1c h2c
      ext <;> omega

instance : IsTotal Pix pixLe where
  total p q := by
    unfold pixLe
    omega

/-- The coordinate list of a pixel set in row-major order
(`np.argwhere(labeled_clean == lab)`, source line 317). -/

def coordsOf (S : Finset Pix) : List Pix :=
  S.sort pixLe

/-- First maximiser scan (`np.argmax`, source line 324): starting from
`best`, replace the current best only on a strict increase, so the
first position attaining the maximum value wins. -/

def argmaxFrom (f : Pix → ℚ) : Pix → List Pix → Pix
  | best, [] => best
  | best, p :: rest =>
    if f best < f p then argmaxFrom f p rest else argmaxFrom f best rest

/-- The coordinate of the first maximiser of `f` along a coordinate
list ((0,0) for the empty list, unreached in the source). -/

def argmaxPix (f : Pix → ℚ) : List Pix → Pix
  | [] => (0, 0)
  | c :: rest => argmaxFrom f c rest

/-- Maximum of a list of rationals (`np.max`, source line 323); 0 for
the empty list (unreached: region coordinate lists are nonempty). -/

def maxQ : List ℚ → ℚ
  | [] => 0
  | x :: xs => xs.foldl max x

/-- Source lines 317-347, the body of the per-region loop: area, peak
temperature and its location, mean temperature, ring background and
contrast, all measured on the original grid `T`.  The source's
`np.isnan` guard on the ring values is vacuous here: the grid invariant
(no missing values) makes every temperature a plain rational. -/

def mkRegion (d : Dims) (T : Pix → ℚ) (ring_width : ℤ) (lab : ℕ)
    (S : Finset Pix) : Region :=
  let coords := coordsOf S
  let vals := coords.map T
  let Tmax := maxQ vals
  let peak : Pix := argmaxPix T coords
  let Tmean := vals.sum / (vals.length : ℚ)
  let ring := dilate_mask d S ring_width \ S
  let ringVals := (coordsOf ring).map T
  let Tbg :=
    if ringVals.length = 0 then
      if 0 < (d.cells \ S).card then npMedian ((coordsOf (d.cells \ S)).map T)
      else npMedian (fieldVals d T)
    else npMedian ringVals
  { ID := lab, area_px := S.card, Tmax_C := Tmax, Tmean_C := Tmean,
    Tbg_C := Tbg, DeltaT_C := Tmax - Tbg, row := peak.1, col := peak.2 }

/-- The ranking order of source line 349: `sorted` with key
`(-Tmax_C, -DeltaT_C)` puts `a` before `b` iff `a`'s key is
lexicographically at most `b`'s. -/

def rankLe (a b : Region) : Prop :=
  b.Tmax_C < a.Tmax_C ∨ (a.Tmax_C = b.Tmax_C ∧ b.DeltaT_C ≤ a.DeltaT_C)

instance decRankLe : DecidableRel rankLe := fun a b => by
  unfold rankLe; infer_instance

instance : IsTotal Region rankLe where
  total a b := by
    unfold rankLe
    rcases lt_trichotomy a.Tmax_C b.Tmax_C with h | h | h
    · right; left; exact h
    · rcases le_total a.DeltaT_C b.DeltaT_C with h2 | h2
      · right; right; exact ⟨h.symm, h2⟩
      · left; right; exact ⟨h, h2⟩
    · left; left; exact h

instance : IsTrans Region rankLe where
  trans a b c hab hbc := by
    unfold rankLe at *
    rcases hab with h1 | ⟨h1, h1d⟩ <;> rcases hbc with h2 | ⟨h2, h2d⟩
    · left; exact lt_trans h2 h1
    · left; rwa [← h2]
    · left; rwa [h1]
    · right; exact ⟨h1.trans h2, le_trans h2d h1d⟩

/-- The mask after small-region removal (`M_clean`, source line 311),
as a function of the candidate threshold `tau`. -/

def cleanMask (d : Dims) (G_s : Pix → ℚ) (tau : ℚ) (min_area : ℤ) : Finset Pix :=
  remove_small_components
    (scanComps d (binary_morphology d (threshold_mask d G_s tau))) min_area

/-- The region records before ranking (source lines 316-347): label
`i + 1` gets the `i`-th scanned component of the clean mask. -/

def regionsOf (d : Dims) (T : Pix → ℚ) (ring_width : ℤ)
    (M_clean : Finset Pix) : List Region :=
  (List.range (scanComps d M_clean).length).map fun i =>
    mkRegion d T ring_width (i + 1) ((scanComps d M_clean).getD i ∅)

/-- Source lines 302-350 (`hotspot_detection`) downstream of the
smoothed gradient-magnitude field `G_s` of line 305 (a real-valued
library computation, taken here as an arbitrary field parameter; every
claim quantifies over it).  The function performs no parameter
validation of its own; `none` models the exception `np.percentile`
raises at line 306 for an out-of-range percentile or empty data.
Python's `sorted` (line 349) is a stable sort by the key
`(-Tmax_C, -DeltaT_C)`; `List.insertionSort` with `rankLe` is stable
for the same total preorder, so it produces the identical list.  Of the
source's returned tuple only the ranked region list is modelled; the
other components are `tau` and the masks named above. -/

def hotspot_detection (d : Dims) (T G_s : Pix → ℚ) (grad_pctl : ℚ)
    (region_min_area ring_width : ℤ) : Option (List Region) :=
  (npPercentile (fieldVals d G_s) grad_pctl).map fun tau =>
    List.insertionSort rankLe
      (regionsOf d T ring_width (cleanMask d G_s tau region_min_area))

/-- Specification-side notion of a maximal 4-connected component: a set
of pixels that is exactly the set of foreground pixels 4-connected to
some foreground pixel. -/
def isComponent (m S : Finset Pix) : Prop :=
  ∃ p ∈ m, ∀ q, q ∈ S ↔ Conn m p q

/-- Specification-side background temperature of a region (claim C2's
wording): dilate the region's own mask by a disk of radius `ringWidth`,
take the ring (dilated minus original), and use the median of grid
values over the ring; an empty ring falls back to the median of all
pixels outside the region, and failing that to the median of the whole
grid. -/

def tbgSpec (d : Dims) (T : Pix → ℚ) (w : ℕ) (S : Finset Pix) : ℚ :=
  if (dilateD d w S \ S).Nonempty then npMedian ((coordsOf (dilateD d w S \ S)).map T)
  else if (d.cells \ S).Nonempty then npMedian ((coordsOf (d.cells \ S)).map T)
  else npMedian (fieldVals d T)


/-! Concrete grids exercising the pipeline; the claim theorems are
instantiated at these explicit inputs. -/

/-- A 5-by-5 grid: one hot pixel of 80 degrees at (2,2) over a 20-degree
background. -/
def exDims : Dims := ⟨5, 5⟩

/-- Temperatures of the 5-by-5 example. -/
def exT : Pix → ℚ := fun p => if p = (2, 2) then 80 else 20

/-- A gradient-magnitude field for the 5-by-5 example with a single
spike at the hot pixel. -/

def exG : Pix → ℚ := fun p => if p = (2, 2) then 1 else 0

/-- The single region the pipeline detects on the 5-by-5 example. -/
def exRegion : Region := ⟨1, 5, 80, 32, 20, 60, 2, 2⟩

/-- A 5-by-9 grid with two separated hot pixels (80 and 70 degrees). -/
def ex2Dims : Dims := ⟨5, 9⟩

/-- Temperatures of the 5-by-9 example. -/
def ex2T : Pix → ℚ := fun p =>
  if p = (2, 2) then 80 else if p = (2, 6) then 70 else 20

/-- A gradient-magnitude field for the 5-by-9 example with spikes at
both hot pixels. -/

def ex2G : Pix → ℚ := fun p =>
  if p = (2, 2) then 1 else if p = (2, 6) then 1 else 0

/-- The hotter of the two regions detected on the 5-by-9 example. -/
def ex2R1 : Region := ⟨1, 5, 80, 32, 20, 60, 2, 2⟩

/-- The cooler of the two regions detected on the 5-by-9 example. -/
def ex2R2 : Region := ⟨2, 5, 70, 30, 20, 50, 2, 6⟩

/-- A 2-by-2 grid. -/
def exSmall : Dims := ⟨2, 2⟩

/-- A uniform 20-degree temperature grid. -/
def exT0 : Pix → ℚ := fun _ => 20

/-- An all-zero gradient-magnitude field. -/
def exG0 : Pix → ℚ := fun _ => 0

theorem mem_cells {d : Dims} {p : Pix} :
    p ∈ d.cells ↔ p.1 < d.H ∧ p.2 < d.W := by
  simp [Dims.cells]

/-- 4-adjacency of pixels: up/down/left/right neighbours, not diagonal.
This is the neighbourhood used by the flood fill of `label_components`
(offsets (1,0),(-1,0),(0,1),(0,-1)) and by the default structuring
element of the hole-filling step. -/

theorem adj_symm {p q : Pix} (h : adj p q) : adj q p := by
  rcases h with ⟨h1, h2 | h2⟩ | ⟨h1, h2 | h2⟩
  · exact Or.inl ⟨h1.symm, Or.inr h2⟩
  · exact Or.inl ⟨h1.symm, Or.inl h2⟩
  · exact Or.inr ⟨h1.symm, Or.inr h2⟩
  · exact Or.inr ⟨h1.symm, Or.inl h2⟩

/-- `Conn P p q`: there is a path of 4-adjacent steps from `p` to `q`
staying inside the pixel set `P`.  This is the specification-side notion
of 4-connectivity ("joined by a 4-connected path of true pixels"). -/

theorem Conn.mem_left {P : Finset Pix} {p q : Pix} (h : Conn P p q) : p ∈ P := by
  induction h with
  | refl hp => exact hp
  | tail _ _ _ ih => exact ih

theorem Conn.mem_right {P : Finset Pix} {p q : Pix} (h : Conn P p q) : q ∈ P := by
  induction h with
  | refl hp => exact hp
  | tail _ _ hr _ => exact hr

theorem Conn.trans {P : Finset Pix} {p q r : Pix}
    (h1 : Conn P p q) (h2 : Conn P q r) : Conn P p r := by
  induction h2 with
  | refl _ => exact h1
  | tail _ ha hr ih => exact Conn.tail ih ha hr

theorem Conn.symm {P : Finset Pix} {p q : Pix} (h : Conn P p q) : Conn P q p := by
  induction h with
  | refl hp => exact Conn.refl hp
  | tail hpq ha hr ih =>
    exact Conn.trans (Conn.tail (Conn.refl hr) (adj_symm ha) hpq.mem_right) ih

theorem Conn.mono {P Q : Finset Pix} {p q : Pix} (hPQ : P ⊆ Q)
    (h : Conn P p q) : Conn Q p q := by
  induction h with
  | refl hp => exact Conn.refl (hPQ hp)
  | tail _ ha hr ih => exact Conn.tail ih ha (hPQ hr)

/-- One step of frontier expansion: add to `X` every pixel of `P`
adjacent to a pixel of `X`. -/

theorem subset_expandStep (P X : Finset Pix) : X ⊆ expandStep P X :=
  Finset.subset_union_left

theorem expandStep_subset {P X : Finset Pix} (hX : X ⊆ P) :
    expandStep P X ⊆ P := by
  intro x hx
  rcases Finset.mem_union.mp hx with h | h
  · exact hX h
  · exact (Finset.mem_filter.mp h).1

theorem iterate_expand_subset {P S : Finset Pix} (hS : S ⊆ P) :
    ∀ k, (expandStep P)^[k] S ⊆ P := by
  intro k
  induction k with
  | zero => simpa using hS
  | succ n ih =>
    rw [Function.iterate_succ_apply']
    exact expandStep_subset ih

theorem iterate_expand_mono {P S : Finset Pix} :
    ∀ {k l : ℕ}, k ≤ l → (expandStep P)^[k] S ⊆ (expandStep P)^[l] S := by
  intro k l hkl
  induction hkl with
  | refl => exact subset_rfl
  | step _ ih =>
    rename_i m _
    rw [Function.iterate_succ_apply']
    exact ih.trans (subset_expandStep P _)

theorem iterate_of_fixed {P X : Finset Pix} (h : expandStep P X = X) :
    ∀ k, (expandStep P)^[k] X = X := by
  intro k
  induction k with
  | zero => rfl
  | succ n ih => rw [Function.iterate_succ_apply', ih, h]

/-- If the expansion has not saturated at any step below `n`, the set has
grown by at least one pixel at every step. -/

theorem card_le_iterate {P S : Finset Pix}
    (h : ∀ k < n, expandStep P ((expandStep P)^[k] S) ≠ (expandStep P)^[k] S) :
    ∀ k ≤ n, k ≤ ((expandStep P)^[k] S).card := by
  intro k hk
  induction k with
  | zero => exact Nat.zero_le _
  | succ m ih =>
    have hm : m ≤ ((expandStep P)^[m] S).card := ih (Nat.le_of_succ_le hk)
    have hne := h m (Nat.lt_of_succ_le hk)
    have hss : (expandStep P)^[m] S ⊂ (expandStep P)^[m+1] S := by
      rw [Function.iterate_succ_apply']
      exact HasSubset.Subset.ssubset_of_ne (subset_expandStep P _) (Ne.symm hne)
    have := Finset.card_lt_card hss
    omega

/-- Saturation: after `P.card` iterations the expansion is a fixpoint. -/
theorem reach_fixed (P S : Finset Pix) :
    expandStep P (reach P S) = reach P S := by
  by_cases hsat : ∃ k ≤ P.card, expandStep P ((expandStep P)^[k] (S ∩ P)) = (expandStep P)^[k] (S ∩ P)
  · rcases hsat with ⟨k, hk, hfix⟩
    have hfix' : ∀ m, (expandStep P)^[m] ((expandStep P)^[k] (S ∩ P)) = (expandStep P)^[k] (S ∩ P) := by
      intro m
      exact iterate_of_fixed hfix m
    have : reach P S = (expandStep P)^[k] (S ∩ P) := by
      unfold reach
      have : P.card = (P.card - k) + k := by omega
      rw [this, Function.iterate_add_apply]
      exact hfix' _
    rw [this, hfix]
  · push_neg at hsat
    exfalso
    have h1 : ∀ k < P.card + 1, expandStep P ((expandStep P)^[k] (S ∩ P)) ≠ (expandStep P)^[k] (S ∩ P) := by
      intro k hk
      exact hsat k (by omega)
    have h2 := card_le_iterate h1 (P.card + 1) le_rfl
    have h3 : (expandStep P)^[P.card + 1] (S ∩ P) ⊆ P :=
      iterate_expand_subset Finset.inter_subset_right _
    have := Finset.card_le_card h3
    omega

theorem seed_subset_reach (P S : Finset Pix) : S ∩ P ⊆ reach P S := by
  unfold reach
  have h0 : (expandStep P)^[0] (S ∩ P) ⊆ (expandStep P)^[P.card] (S ∩ P) :=
    iterate_expand_mono (Nat.zero_le _)
  simpa using h0

theorem reach_subset (P S : Finset Pix) : reach P S ⊆ P :=
  iterate_expand_subset Finset.inter_subset_right _

/-- Soundness of the iterates: every pixel added by `k` expansion steps
is connected to a seed. -/

theorem iterate_expand_sound {P S : Finset Pix} :
    ∀ (k : ℕ) {x : Pix}, x ∈ (expandStep P)^[k] (S ∩ P) → ∃ s ∈ S, Conn P s x := by
  intro k
  induction k with
  | zero =>
    intro x hx
    simp only [Function.iterate_zero_apply, Finset.mem_inter] at hx
    exact ⟨x, hx.1, Conn.refl hx.2⟩
  | succ n ih =>
    intro x hx
    rw [Function.iterate_succ_apply'] at hx
    rcases Finset.mem_union.mp hx with h | h
    · exact ih h
    · rcases Finset.mem_filter.mp h with ⟨hxP, p, hp, hadj⟩
      obtain ⟨s, hs, hconn⟩ := ih hp
      exact ⟨s, hs, Conn.tail hconn hadj hxP⟩

/-- Soundness: every pixel in the reachable set is connected to a seed. -/
theorem reach_sound {P S : Finset Pix} {x : Pix} (hx : x ∈ reach P S) :
    ∃ s ∈ S, Conn P s x :=
  iterate_expand_sound P.card hx

/-- Completeness: any pixel connected to a seed pixel is reachable. -/
theorem reach_complete {P S : Finset Pix} {s x : Pix}
    (hs : s ∈ S) (h : Conn P s x) : x ∈ reach P S := by
  have hclosed : expandStep P (reach P S) ⊆ reach P S :=
    le_of_eq (reach_fixed P S)
  induction h with
  | refl hp => exact seed_subset_reach P S (Finset.mem_inter.mpr ⟨hs, hp⟩)
  | tail _ ha hr ih =>
    apply hclosed
    apply Finset.mem_union_right
    exact Finset.mem_filter.mpr ⟨hr, _, ih, ha⟩

/-- Membership in the computed reachable set coincides with the
existence of a 4-connected path inside `P` from a seed pixel. -/

theorem mem_reach {P S : Finset Pix} {x : Pix} :
    x ∈ reach P S ↔ ∃ s ∈ S, Conn P s x := by
  constructor
  · exact reach_sound
  · rintro ⟨s, hs, h⟩
    exact reach_complete hs h

/-! Binary morphology (`binary_morphology`, source lines 117-128, SciPy
strategy).  The structuring elements are disks: all integer offsets
within Euclidean distance `r` of the centre.  SciPy's `binary_dilation`
and `binary_closing` are called with default `border_value=0`, so pixels
outside the array count as background for both dilation and erosion. -/

theorem dilateD_subset_cells (d : Dims) (r : ℕ) (m : Finset Pix) :
    dilateD d r m ⊆ d.cells :=
  Finset.filter_subset _ _

theorem fill_holes_subset_cells (d : Dims) (m : Finset Pix) :
    fill_holes d m ⊆ d.cells :=
  Finset.filter_subset _ _

/-- A dilation of radius 0 is the identity on in-bounds masks: the only
integer point within distance 0 is the pixel itself. -/

theorem dilateD_zero {d : Dims} {m : Finset Pix} (hm : m ⊆ d.cells) :
    dilateD d 0 m = m := by
  ext p
  simp only [dilateD, Finset.mem_filter]
  constructor
  · rintro ⟨hp, q, hq, hle⟩
    have h1 : ((p.1 : ℤ) - (q.1 : ℤ)) ^ 2 = 0 ∧ ((p.2 : ℤ) - (q.2 : ℤ)) ^ 2 = 0 := by
      constructor <;> nlinarith [sq_nonneg ((p.1 : ℤ) - (q.1 : ℤ)), sq_nonneg ((p.2 : ℤ) - (q.2 : ℤ)),
        (by simpa [pixDistSq] using hle : ((p.1 : ℤ) - (q.1 : ℤ)) ^ 2 + ((p.2 : ℤ) - (q.2 : ℤ)) ^ 2 ≤ 0)]
    have hpq : p = q := by
      have e1 : (p.1 : ℤ) = q.1 := by nlinarith [h1.1]
      have e2 : (p.2 : ℤ) = q.2 := by nlinarith [h1.2]
      have : p.1 = q.1 := by exact_mod_cast e1
      have : p.2 = q.2 := by exact_mod_cast e2
      ext <;> assumption
    rw [hpq]; exact hq
  · intro hp
    exact ⟨hm hp, p, hp, by simp [pixDistSq]⟩

/-! Connected-component labeling (`label_components`, source lines
137-159).  The source scans pixels in row-major order and, at each
unlabeled foreground pixel, runs an explicit-stack 4-connected flood
fill assigning the next label to every pixel of that pixel's component.
The flood fill marks exactly the 4-connected component of its seed,
embedded here as the `reach` fixpoint (`comp`). -/

/-- The 4-connected component of pixel `p` within mask `m` (the set the
stack-based flood fill seeded at `p` marks). -/

theorem mem_comp {m : Finset Pix} {p q : Pix} :
    q ∈ comp m p ↔ Conn m p q := by
  simp [comp, mem_reach]

theorem comp_subset {m : Finset Pix} {p : Pix} : comp m p ⊆ m :=
  reach_subset m {p}

theorem self_mem_comp {m : Finset Pix} {p : Pix} (hp : p ∈ m) :
    p ∈ comp m p :=
  mem_comp.mpr (Conn.refl hp)

theorem comp_eq_of_mem {m : Finset Pix} {p q : Pix} (h : q ∈ comp m p) :
    comp m p = comp m q := by
  have hpq : Conn m p q := mem_comp.mp h
  ext x
  simp only [mem_comp]
  exact ⟨fun hx => Conn.trans hpq.symm hx, fun hx => Conn.trans hpq hx⟩

/-- Rows-major enumeration of all grid positions, the scan order of the
outer loops of `label_components`. -/

theorem mem_rowMajor {d : Dims} {p : Pix} :
    p ∈ rowMajor d ↔ p.1 < d.H ∧ p.2 < d.W := by
  cases p with
  | mk r c => simp [rowMajor]

/-- One step of the labeling scan: at an unlabeled foreground pixel,
append its whole component as the next labeled region. -/

theorem mem_foldl_scanStep {m : Finset Pix} {S : Finset Pix} :
    ∀ (ps : List Pix) (L : List (Finset Pix)), S ∈ L →
      S ∈ ps.foldl (scanStep m) L := by
  intro ps
  induction ps with
  | nil => intro L h; exact h
  | cons q rest ih =>
    intro L h
    apply ih
    unfold scanStep
    split
    · exact List.mem_append_left _ h
    · exact h

/-- Fold invariant: every accumulated region is a component of `m`, and
the accumulated regions are pairwise disjoint. -/

theorem foldl_scanStep_inv {m : Finset Pix} :
    ∀ (ps : List Pix) (L : List (Finset Pix)),
      (∀ S ∈ L, ∃ p ∈ m, S = comp m p) → L.Pairwise Disjoint →
      (∀ S ∈ ps.foldl (scanStep m) L, ∃ p ∈ m, S = comp m p) ∧
        (ps.foldl (scanStep m) L).Pairwise Disjoint := by
  intro ps
  induction ps with
  | nil => intro L h1 h2; exact ⟨h1, h2⟩
  | cons q rest ih =>
    intro L h1 h2
    apply ih
    · intro S hS
      unfold scanStep at hS
      split at hS
      · rcases List.mem_append.mp hS with h | h
        · exact h1 S h
        · rename_i hcond
          rcases List.mem_singleton.mp h with rfl
          exact ⟨q, hcond.1, rfl⟩
      · exact h1 S hS
    · unfold scanStep
      split
      · rename_i hcond
        rw [List.pairwise_append]
        refine ⟨h2, List.pairwise_singleton _ _, ?_⟩
        intro S hS T hT
        rcases List.mem_singleton.mp hT with rfl
        obtain ⟨p, hpm, rfl⟩ := h1 S hS
        rw [Finset.disjoint_right]
        intro x hx hxS
        have h3 : comp m p = comp m x := comp_eq_of_mem hxS
        have h4 : comp m q = comp m x := comp_eq_of_mem hx
        have : q ∈ comp m p := by
          rw [h3, ← h4]
          exact self_mem_comp hcond.1
        exact hcond.2 (comp m p) hS this
      · exact h2

/-- Fold coverage: every foreground pixel of the scanned list ends up in
some accumulated region. -/

theorem foldl_scanStep_cover {m : Finset Pix} :
    ∀ (ps : List Pix) (L : List (Finset Pix)) (p : Pix), p ∈ ps → p ∈ m →
      ∃ S ∈ ps.foldl (scanStep m) L, p ∈ S := by
  intro ps
  induction ps with
  | nil => intro L p h; simp at h
  | cons q rest ih =>
    intro L p hp hpm
    rcases List.mem_cons.mp hp with rfl | h
    · by_cases hq : ∃ S ∈ scanStep m L p, p ∈ S
      · obtain ⟨S, hS, hpS⟩ := hq
        exact ⟨S, mem_foldl_scanStep rest _ hS, hpS⟩
      · exfalso
        apply hq
        unfold scanStep
        split
        · exact ⟨comp m p, List.mem_append_right _ (List.mem_singleton_self _),
            self_mem_comp hpm⟩
        · rename_i hcond
          push_neg at hcond
          obtain ⟨S, hS, hpS⟩ := hcond hpm
          exact ⟨S, hS, hpS⟩
    · exact ih (scanStep m L q) p h hpm

theorem scanComps_comp {d : Dims} {m : Finset Pix} {S : Finset Pix}
    (hS : S ∈ scanComps d m) : ∃ p ∈ m, S = comp m p :=
  (foldl_scanStep_inv (rowMajor d) [] (by simp) (by simp)).1 S hS

theorem scanComps_disjoint (d : Dims) (m : Finset Pix) :
    (scanComps d m).Pairwise Disjoint :=
  (foldl_scanStep_inv (rowMajor d) [] (by simp) (by simp)).2

theorem scanComps_cover {d : Dims} {m : Finset Pix} (hm : m ⊆ d.cells)
    {p : Pix} (hp : p ∈ m) : ∃ S ∈ scanComps d m, p ∈ S := by
  apply foldl_scanStep_cover
  · rw [mem_rowMajor]
    exact mem_cells.mp (hm hp)
  · exact hp

/-- Characterisation of the scanned regions: they are exactly the
4-connected components of the mask. -/

theorem mem_scanComps {d : Dims} {m : Finset Pix} (hm : m ⊆ d.cells)
    {S : Finset Pix} : S ∈ scanComps d m ↔ ∃ p ∈ m, S = comp m p := by
  constructor
  · exact scanComps_comp
  · rintro ⟨p, hp, rfl⟩
    obtain ⟨T, hT, hpT⟩ := scanComps_cover hm hp
    obtain ⟨q, hq, rfl⟩ := scanComps_comp hT
    rwa [← comp_eq_of_mem hpT]

theorem scanComps_nonempty {d : Dims} {m : Finset Pix} {S : Finset Pix}
    (hS : S ∈ scanComps d m) : S.Nonempty := by
  obtain ⟨p, hp, rfl⟩ := scanComps_comp hS
  exact ⟨p, self_mem_comp hp⟩

theorem scanComps_nodup (d : Dims) (m : Finset Pix) :
    (scanComps d m).Nodup := by
  have h := scanComps_disjoint d m
  refine List.Pairwise.imp_of_mem ?_ h
  intro S T hS hT hdis
  intro hST
  obtain ⟨p, hp⟩ := scanComps_nonempty hS
  rw [hST] at hp
  exact Finset.disjoint_left.mp hdis (hST ▸ hp) hp

theorem labelFrom_eq_zero {p : Pix} :
    ∀ {L : List (Finset Pix)} {k : ℕ}, (∀ S ∈ L, p ∉ S) → labelFrom p L k = 0 := by
  intro L
  induction L with
  | nil => intro k _; rfl
  | cons S rest ih =>
    intro k h
    unfold labelFrom
    rw [if_neg (h S (List.mem_cons_self _ _))]
    exact ih fun T hT => h T (List.mem_cons_of_mem _ hT)

theorem labelFrom_zero_or_ge {p : Pix} :
    ∀ {L : List (Finset Pix)} {k : ℕ}, labelFrom p L k = 0 ∨ k ≤ labelFrom p L k := by
  intro L
  induction L with
  | nil => intro k; exact Or.inl rfl
  | cons S rest ih =>
    intro k
    unfold labelFrom
    split
    · exact Or.inr le_rfl
    · rcases @ih (k + 1) with h | h
      · exact Or.inl h
      · exact Or.inr (le_trans (Nat.le_succ k) h)

theorem labelFrom_pos {p : Pix} :
    ∀ {L : List (Finset Pix)} {k : ℕ}, (∃ S ∈ L, p ∈ S) → k ≤ labelFrom p L k := by
  intro L
  induction L with
  | nil => intro k h; simp at h
  | cons S rest ih =>
    intro k h
    unfold labelFrom
    split
    · exact le_rfl
    · rename_i hnot
      obtain ⟨T, hT, hpT⟩ := h
      rcases List.mem_cons.mp hT with rfl | hT2
      · exact absurd hpT hnot
      · exact le_trans (Nat.le_succ k) (ih ⟨T, hT2, hpT⟩)

/-- If two pixels receive the same positive label, some listed region
contains both of them. -/

theorem labelFrom_extract {p q : Pix} :
    ∀ {L : List (Finset Pix)} {k : ℕ}, 0 < k →
      labelFrom p L k = labelFrom q L k → (∃ S ∈ L, p ∈ S) →
      ∃ S ∈ L, p ∈ S ∧ q ∈ S := by
  intro L
  induction L with
  | nil => intro k _ _ h; simp at h
  | cons S rest ih =>
    intro k hk heq hex
    by_cases hpS : p ∈ S
    · by_cases hqS : q ∈ S
      · exact ⟨S, List.mem_cons_self _ _, hpS, hqS⟩
      · exfalso
        unfold labelFrom at heq
        rw [if_pos hpS, if_neg hqS] at heq
        rcases @labelFrom_zero_or_ge q rest (k + 1) with h | h
        · omega
        · omega
    · by_cases hqS : q ∈ S
      · exfalso
        unfold labelFrom at heq
        rw [if_neg hpS, if_pos hqS] at heq
        have hprest : ∃ T ∈ rest, p ∈ T := by
          obtain ⟨T, hT, hpT⟩ := hex
          rcases List.mem_cons.mp hT with rfl | hT2
          · exact absurd hpT hpS
          · exact ⟨T, hT2, hpT⟩
        have := labelFrom_pos hprest (k := k + 1)
        omega
      · unfold labelFrom at heq
        rw [if_neg hpS, if_neg hqS] at heq
        have hprest : ∃ T ∈ rest, p ∈ T := by
          obtain ⟨T, hT, hpT⟩ := hex
          rcases List.mem_cons.mp hT with rfl | hT2
          · exact absurd hpT hpS
          · exact ⟨T, hT2, hpT⟩
        obtain ⟨T, hT, h1, h2⟩ := ih (Nat.succ_pos k) heq hprest
        exact ⟨T, List.mem_cons_of_mem _ hT, h1, h2⟩

/-- A pixel's label only depends on which listed regions contain it. -/
theorem labelFrom_congr {p q : Pix} :
    ∀ {L : List (Finset Pix)} {k : ℕ}, (∀ T ∈ L, (p ∈ T ↔ q ∈ T)) →
      labelFrom p L k = labelFrom q L k := by
  intro L
  induction L with
  | nil => intro k _; rfl
  | cons S rest ih =>
    intro k h
    unfold labelFrom
    have hS := h S (List.mem_cons_self _ _)
    by_cases hpS : p ∈ S
    · rw [if_pos hpS, if_pos (hS.mp hpS)]
    · rw [if_neg hpS, if_neg (fun hq => hpS (hS.mpr hq))]
      exact ih fun T hT => h T (List.mem_cons_of_mem _ hT)

/-- Source lines 162-171: keep only the pixels of labeled regions whose
pixel count is at least `min_area`.  The labeled regions with labels
`1..n` are the entries of the scanned component list, and
`np.sum(labeled == lab)` is the pixel count of the corresponding entry;
`keep` accumulates the union of the surviving regions.  `min_area` is an
arbitrary (possibly negative) integer, as in the source. -/

theorem mem_foldr_union {l : List (Finset Pix)} {p : Pix} :
    p ∈ l.foldr (· ∪ ·) ∅ ↔ ∃ S ∈ l, p ∈ S := by
  induction l with
  | nil => simp
  | cons S rest ih => simp [ih]

theorem mem_remove_small_components {comps : List (Finset Pix)} {a : ℤ} {p : Pix} :
    p ∈ remove_small_components comps a ↔ ∃ S ∈ comps, a ≤ (S.card : ℤ) ∧ p ∈ S := by
  unfold remove_small_components
  rw [mem_foldr_union]
  constructor
  · rintro ⟨S, hS, hpS⟩
    rw [List.mem_filter] at hS
    exact ⟨S, hS.1, by simpa using hS.2, hpS⟩
  · rintro ⟨S, hS, ha, hpS⟩
    exact ⟨S, List.mem_filter.mpr ⟨hS, by simpa using ha⟩, hpS⟩

/-- Restricting a mask to a union of whole components does not change
the component of any surviving pixel. -/

theorem comp_restrict {m m1 : Finset Pix} (hsub : m1 ⊆ m) {q : Pix}
    (hq : q ∈ m1) (hcomp : comp m q ⊆ m1) : comp m1 q = comp m q := by
  apply Finset.Subset.antisymm
  · intro x hx
    exact mem_comp.mpr (Conn.mono hsub (mem_comp.mp hx))
  · intro x hx
    have hconn : Conn m q x := mem_comp.mp hx
    rw [mem_comp]
    clear hx
    induction hconn with
    | refl _ => exact Conn.refl hq
    | tail h ha hr ih =>
      refine Conn.tail ih ha (hcomp (mem_comp.mpr (Conn.tail h ha hr)))

/-! Percentile thresholding (source lines 306-307) and the per-region
analysis and ranking (source lines 314-350). -/

/-! Helper lemmas about list maxima and the fields of `mkRegion`. -/

theorem foldl_max_eq_or_mem (xs : List ℚ) :
    ∀ a : ℚ, xs.foldl max a = a ∨ xs.foldl max a ∈ xs := by
  induction xs with
  | nil => intro a; exact Or.inl rfl
  | cons x xs ih =>
    intro a
    rcases ih (max a x) with h | h
    · rcases max_choice a x with h2 | h2
      · left; rw [List.foldl_cons, h, h2]
      · right; rw [List.foldl_cons, h, h2]; exact List.mem_cons_self _ _
    · right
      refine List.mem_cons_of_mem _ ?_
      rw [List.foldl_cons]
      exact h

theorem le_foldl_max (xs : List ℚ) :
    ∀ a : ℚ, a ≤ xs.foldl max a ∧ ∀ y ∈ xs, y ≤ xs.foldl max a := by
  induction xs with
  | nil => intro a; exact ⟨le_rfl, by simp⟩
  | cons x xs ih =>
    intro a
    obtain ⟨h1, h2⟩ := ih (max a x)
    refine ⟨le_trans (le_max_left a x) h1, ?_⟩
    intro y hy
    rcases List.mem_cons.mp hy with rfl | hy2
    · exact le_trans (le_max_right a y) h1
    · exact h2 y hy2

theorem maxQ_mem {l : List ℚ} (hl : l ≠ []) : maxQ l ∈ l := by
  cases l with
  | nil => exact absurd rfl hl
  | cons x xs =>
    rcases foldl_max_eq_or_mem xs x with h | h
    · rw [maxQ, h]; exact List.mem_cons_self _ _
    · exact List.mem_cons_of_mem _ h

theorem le_maxQ {l : List ℚ} {x : ℚ} (hx : x ∈ l) : x ≤ maxQ l := by
  cases l with
  | nil => simp at hx
  | cons y ys =>
    rcases List.mem_cons.mp hx with rfl | h
    · exact (le_foldl_max ys x).1
    · exact (le_foldl_max ys y).2 x h

theorem argmaxFrom_mem (f : Pix → ℚ) :
    ∀ (l : List Pix) (b : Pix), argmaxFrom f b l ∈ b :: l := by
  intro l
  induction l with
  | nil => intro b; simp [argmaxFrom]
  | cons p rest ih =>
    intro b
    unfold argmaxFrom
    split
    · rcases List.mem_cons.mp (ih p) with h | h
      · simp [h]
      · exact List.mem_cons_of_mem _ (List.mem_cons_of_mem _ h)
    · rcases List.mem_cons.mp (ih b) with h | h
      · simp [h]
      · exact List.mem_cons_of_mem _ (List.mem_cons_of_mem _ h)

theorem coordsOf_length (S : Finset Pix) : (coordsOf S).length = S.card :=
  Finset.length_sort pixLe

theorem mem_coordsOf {S : Finset Pix} {p : Pix} : p ∈ coordsOf S ↔ p ∈ S :=
  Finset.mem_sort pixLe

theorem mkRegion_ID (d : Dims) (T : Pix → ℚ) (w : ℤ) (lab : ℕ) (S : Finset Pix) :
    (mkRegion d T w lab S).ID = lab := rfl

theorem mkRegion_area (d : Dims) (T : Pix → ℚ) (w : ℤ) (lab : ℕ) (S : Finset Pix) :
    (mkRegion d T w lab S).area_px = S.card := rfl

theorem mkRegion_Tmax (d : Dims) (T : Pix → ℚ) (w : ℤ) (lab : ℕ) (S : Finset Pix) :
    (mkRegion d T w lab S).Tmax_C = maxQ ((coordsOf S).map T) := rfl

theorem mkRegion_Tmean (d : Dims) (T : Pix → ℚ) (w : ℤ) (lab : ℕ) (S : Finset Pix) :
    (mkRegion d T w lab S).Tmean_C =
      ((coordsOf S).map T).sum / (((coordsOf S).map T).length : ℚ) := rfl

theorem le_mkRegion_Tmax {d : Dims} {T : Pix → ℚ} {w : ℤ} {lab : ℕ}
    {S : Finset Pix} {p : Pix} (hp : p ∈ S) :
    T p ≤ (mkRegion d T w lab S).Tmax_C := by
  rw [mkRegion_Tmax]
  exact le_maxQ (List.mem_map_of_mem T (mem_coordsOf.mpr hp))

theorem mkRegion_Tmax_attained {d : Dims} {T : Pix → ℚ} {w : ℤ} {lab : ℕ}
    {S : Finset Pix} (hS : S.Nonempty) :
    ∃ p ∈ S, T p = (mkRegion d T w lab S).Tmax_C := by
  rw [mkRegion_Tmax]
  have hne : (coordsOf S).map T ≠ [] := by
    have : 0 < ((coordsOf S).map T).length := by
      rw [List.length_map, coordsOf_length]
      exact Finset.card_pos.mpr hS
    exact List.ne_nil_of_length_pos this
  obtain ⟨p, hp, hpe⟩ := List.mem_map.mp (maxQ_mem hne)
  exact ⟨p, mem_coordsOf.mp hp, hpe⟩

theorem mkRegion_peak_mem {d : Dims} {T : Pix → ℚ} {w : ℤ} {lab : ℕ}
    {S : Finset Pix} (hS : S.Nonempty) :
    ((mkRegion d T w lab S).row, (mkRegion d T w lab S).col) ∈ S := by
  have hne : coordsOf S ≠ [] := by
    have : 0 < (coordsOf S).length := by
      rw [coordsOf_length]; exact Finset.card_pos.mpr hS
    exact List.ne_nil_of_length_pos this
  obtain ⟨c, rest, hcr⟩ := List.exists_cons_of_ne_nil hne
  have hpk : argmaxPix T (coordsOf S) = argmaxFrom T c rest := by
    rw [hcr]
    rfl
  have hrow : (mkRegion d T w lab S).row = (argmaxPix T (coordsOf S)).1 := rfl
  have hcol : (mkRegion d T w lab S).col = (argmaxPix T (coordsOf S)).2 := rfl
  rw [hrow, hcol, hpk]
  have := argmaxFrom_mem T rest c
  rw [← hcr] at this
  exact mem_coordsOf.mp this

theorem mkRegion_Tmean_sum {d : Dims} {T : Pix → ℚ} {w : ℤ} {lab : ℕ}
    {S : Finset Pix} :
    (mkRegion d T w lab S).Tmean_C = (∑ p ∈ S, T p) / (S.card : ℚ) := by
  rw [mkRegion_Tmean]
  have hsum : ((coordsOf S).map T).sum = ∑ p ∈ S, T p := by
    have hnd : (coordsOf S).Nodup := Finset.sort_nodup pixLe S
    have h2 := List.sum_toFinset T hnd
    have h3 : (coordsOf S).toFinset = S := by
      rw [coordsOf, Finset.sort_toFinset]
    rw [h3] at h2
    exact h2.symm
  rw [hsum, List.length_map, coordsOf_length]

theorem mkRegion_Tmean_le_Tmax {d : Dims} {T : Pix → ℚ} {w : ℤ} {lab : ℕ}
    {S : Finset Pix} (hS : S.Nonempty) :
    (mkRegion d T w lab S).Tmean_C ≤ (mkRegion d T w lab S).Tmax_C := by
  rw [mkRegion_Tmean, mkRegion_Tmax]
  set vals := (coordsOf S).map T with hvals
  have hlen : 0 < vals.length := by
    rw [hvals, List.length_map, coordsOf_length]
    exact Finset.card_pos.mpr hS
  have hle : vals.sum ≤ vals.length • maxQ vals :=
    List.sum_le_card_nsmul vals (maxQ vals) fun x hx => le_maxQ hx
  rw [nsmul_eq_mul] at hle
  rw [div_le_iff₀ (by exact_mod_cast hlen)]
  calc vals.sum ≤ (vals.length : ℚ) * maxQ vals := hle
    _ = maxQ vals * (vals.length : ℚ) := mul_comm _ _

/-! Extraction lemmas connecting pipeline output regions to the
components they were built from. -/

theorem hotspot_detection_eq {d : Dims} {T G_s : Pix → ℚ} {q : ℚ} {a w : ℤ}
    {rs : List Region} (h : hotspot_detection d T G_s q a w = some rs) :
    ∃ tau, npPercentile (fieldVals d G_s) q = some tau ∧
      rs = List.insertionSort rankLe (regionsOf d T w (cleanMask d G_s tau a)) := by
  unfold hotspot_detection at h
  cases hnp : npPercentile (fieldVals d G_s) q with
  | none => rw [hnp] at h; simp at h
  | some tau =>
    rw [hnp] at h
    simp only [Option.map_some', Option.some.injEq] at h
    exact ⟨tau, rfl, h.symm⟩

theorem mem_regionsOf {d : Dims} {T : Pix → ℚ} {w : ℤ} {M : Finset Pix}
    {reg : Region} (h : reg ∈ regionsOf d T w M) :
    ∃ S ∈ scanComps d M, reg = mkRegion d T w reg.ID S := by
  unfold regionsOf at h
  rcases List.mem_map.mp h with ⟨i, hi, rfl⟩
  have hilt : i < (scanComps d M).length := List.mem_range.mp hi
  have hget : (scanComps d M).getD i ∅ = (scanComps d M).get ⟨i, hilt⟩ := by
    rw [List.getD_eq_getElem?_getD, List.getElem?_eq_getElem hilt]
    rfl
  refine ⟨(scanComps d M).getD i ∅, ?_, ?_⟩
  · rw [hget]; exact List.get_mem _ _ hilt
  · rw [mkRegion_ID]

theorem hotspot_mem {d : Dims} {T G_s : Pix → ℚ} {q : ℚ} {a w : ℤ}
    {rs : List Region} (h : hotspot_detection d T G_s q a w = some rs)
    {reg : Region} (hreg : reg ∈ rs) :
    ∃ tau, npPercentile (fieldVals d G_s) q = some tau ∧
      ∃ S ∈ scanComps d (cleanMask d G_s tau a), reg = mkRegion d T w reg.ID S := by
  obtain ⟨tau, hnp, rfl⟩ := hotspot_detection_eq h
  refine ⟨tau, hnp, ?_⟩
  have hperm := List.perm_insertionSort rankLe (regionsOf d T w (cleanMask d G_s tau a))
  exact mem_regionsOf (hperm.mem_iff.mp hreg)


/-! The claim theorems. -/

/-- C3: for every binary mask, `binary_morphology` (the `refine`
operation) returns a same-shaped mask obtained by exactly the sequence
closing with a disk of radius 2 (dilation then erosion), dilation with a
disk of radius 1, then hole filling that flips to foreground every
background pixel unreachable from the grid border via a 4-connected
background path. -/
theorem binary_morphology_spec (d : Dims) (m : Finset Pix) :
    (∀ p, p ∈ binary_morphology d m ↔
      (p ∈ dilateD d 1 (erodeD d 2 (dilateD d 2 m)) ∨
        (p ∈ d.cells ∧ p ∉ dilateD d 1 (erodeD d 2 (dilateD d 2 m)) ∧
          ¬∃ b ∈ borderPix d,
            Conn (d.cells \ dilateD d 1 (erodeD d 2 (dilateD d 2 m))) b p))) ∧
      binary_morphology d m ⊆ d.cells := by
  constructor
  · intro p
    show p ∈ fill_holes d (dilateD d 1 (erodeD d 2 (dilateD d 2 m))) ↔ _
    set dl := dilateD d 1 (erodeD d 2 (dilateD d 2 m)) with hdl
    simp only [fill_holes, Finset.mem_filter]
    constructor
    · rintro ⟨hp, hin | hnr⟩
      · exact Or.inl hin
      · by_cases hpd : p ∈ dl
        · exact Or.inl hpd
        · refine Or.inr ⟨hp, hpd, ?_⟩
          rintro ⟨b, hb, hconn⟩
          exact hnr (mem_reach.mpr ⟨b, hb, hconn⟩)
    · rintro (hin | ⟨hp, hpd, hnc⟩)
      · exact ⟨dilateD_subset_cells d 1 _ hin, Or.inl hin⟩
      · refine ⟨hp, Or.inr ?_⟩
        intro hr
        obtain ⟨b, hb, hconn⟩ := reach_sound hr
        exact hnc ⟨b, hb, hconn⟩
  · exact fill_holes_subset_cells d _

/-- C6: `label_components` partitions the foreground: every true pixel
receives a positive label, background pixels are labeled 0, two true
pixels share a label exactly when a 4-connected foreground path joins
them, and the returned count is the number of maximal 4-connected
components (0 for an all-false mask). -/

theorem label_components_spec (d : Dims) (m : Finset Pix) (hm : m ⊆ d.cells) :
    (∀ p ∈ m, 0 < (label_components d m).1 p) ∧
      (∀ p, p ∉ m → (label_components d m).1 p = 0) ∧
      (∀ p ∈ m, ∀ q ∈ m,
        ((label_components d m).1 p = (label_components d m).1 q ↔ Conn m p q)) ∧
      (∃ C : Finset (Finset Pix), (∀ S, S ∈ C ↔ isComponent m S) ∧
        (label_components d m).2 = C.card) ∧
      (m = ∅ → (label_components d m).2 = 0) := by
  refine ⟨?_, ?_, ?_, ?_, ?_⟩
  · intro p hp
    obtain ⟨S, hS, hpS⟩ := scanComps_cover hm hp
    have := labelFrom_pos (L := scanComps d m) (k := 1) ⟨S, hS, hpS⟩
    show 0 < labelFrom p (scanComps d m) 1
    omega
  · intro p hp
    apply labelFrom_eq_zero
    intro S hS hpS
    obtain ⟨t, ht, rfl⟩ := scanComps_comp hS
    exact hp (comp_subset hpS)
  · intro p hp q hq
    constructor
    · intro heq
      obtain ⟨S, hS, hpS, hqS⟩ :=
        labelFrom_extract (k := 1) Nat.one_pos heq (scanComps_cover hm hp)
      obtain ⟨t, ht, rfl⟩ := scanComps_comp hS
      exact Conn.trans (Conn.symm (mem_comp.mp hpS)) (mem_comp.mp hqS)
    · intro hconn
      apply labelFrom_congr
      intro S hS
      obtain ⟨t, ht, rfl⟩ := scanComps_comp hS
      simp only [mem_comp]
      exact ⟨fun h => Conn.trans h hconn, fun h => Conn.trans h (Conn.symm hconn)⟩
  · refine ⟨(scanComps d m).toFinset, ?_, ?_⟩
    · intro S
      rw [List.mem_toFinset, mem_scanComps hm]
      constructor
      · rintro ⟨p, hp, rfl⟩
        exact ⟨p, hp, fun q => mem_comp⟩
      · rintro ⟨p, hp, hiff⟩
        refine ⟨p, hp, ?_⟩
        ext q
        rw [hiff q, mem_comp]
    · exact (List.toFinset_card_of_nodup (scanComps_nodup d m)).symm
  · intro hm0
    show (scanComps d m).length = 0
    rw [List.length_eq_zero]
    rw [List.eq_nil_iff_forall_not_mem]
    intro S hS
    obtain ⟨p, hp, _⟩ := scanComps_comp hS
    rw [hm0] at hp
    simp at hp

/-- The filtered mask only keeps pixels of the original mask. -/
theorem remove_small_subset {d : Dims} {m : Finset Pix} {a : ℤ} :
    remove_small_components (scanComps d m) a ⊆ m := by
  intro x hx
  obtain ⟨Tc, hTc, _, hxTc⟩ := mem_remove_small_components.mp hx
  obtain ⟨t, ht, rfl⟩ := scanComps_comp hTc
  exact comp_subset hxTc

/-- The components of the filtered mask are exactly the surviving
components of the original mask, with their areas intact. -/

theorem scanComps_filtered {d : Dims} {m : Finset Pix} {a : ℤ}
    {S : Finset Pix}
    (hS : S ∈ scanComps d (remove_small_components (scanComps d m) a)) :
    S ∈ scanComps d m ∧ a ≤ (S.card : ℤ) := by
  obtain ⟨p, hp, rfl⟩ := scanComps_comp hS
  obtain ⟨Tc, hTc, hca, hpTc⟩ := mem_remove_small_components.mp hp
  obtain ⟨t, ht, rfl⟩ := scanComps_comp hTc
  have hcm : comp m t = comp m p := comp_eq_of_mem hpTc
  have hsub : comp m p ⊆ remove_small_components (scanComps d m) a := by
    intro x hx
    exact mem_remove_small_components.mpr
      ⟨comp m t, hTc, hca, by rw [hcm]; exact hx⟩
  have hres := comp_restrict (remove_small_subset (d := d)) hp hsub
  rw [hres, ← hcm]
  exact ⟨hTc, hca⟩

/-- C9: the region filter is idempotent: filtering, re-labeling the
resulting mask, and filtering again with the same minimum area yields
the same mask as the first filtering. -/

theorem region_filter_idempotent (d : Dims) (m : Finset Pix) (a : ℤ)
    (hm : m ⊆ d.cells) :
    remove_small_components
        (scanComps d (remove_small_components (scanComps d m) a)) a =
      remove_small_components (scanComps d m) a := by
  ext x
  rw [mem_remove_small_components]
  constructor
  · rintro ⟨S, hS, hSa, hxS⟩
    obtain ⟨hSm, hca⟩ := scanComps_filtered hS
    exact mem_remove_small_components.mpr ⟨S, hSm, hca, hxS⟩
  · intro hx
    have hm1c : remove_small_components (scanComps d m) a ⊆ d.cells :=
      remove_small_subset.trans hm
    obtain ⟨S, hS, hxS⟩ := scanComps_cover hm1c hx
    obtain ⟨hSm, hca⟩ := scanComps_filtered hS
    exact ⟨S, hS, hca, hxS⟩

/-- C10: every region record in the pipeline's output has pixel area at
least the minimum region area: filtering removes whole 4-connected
components and re-labeling reproduces exactly the surviving components,
so no smaller region can appear in the ranked list. -/

theorem region_area_at_least_min (d : Dims) (T G_s : Pix → ℚ) (q : ℚ)
    (a w : ℤ) (rs : List Region) (ha : 1 ≤ a)
    (h : hotspot_detection d T G_s q a w = some rs) :
    ∀ reg ∈ rs, a ≤ (reg.area_px : ℤ) := by
  intro reg hreg
  obtain ⟨tau, hnp, S, hS, hregeq⟩ := hotspot_mem h hreg
  have hS2 : S ∈ scanComps d
      (remove_small_components
        (scanComps d (binary_morphology d (threshold_mask d G_s tau))) a) := hS
  obtain ⟨_, hca⟩ := scanComps_filtered hS2
  rw [hregeq, mkRegion_area]
  exact hca

/-- C1: the sequence of Region records returned by `hotspot_detection`
is sorted by Tmax descending with DeltaT descending as tie-break: for
all adjacent output positions, either the earlier Tmax is strictly
larger, or the Tmax values are equal and the earlier DeltaT is at least
the later one. -/

theorem hotspot_ranking_sorted (d : Dims) (T G_s : Pix → ℚ) (q : ℚ)
    (a w : ℤ) (rs : List Region)
    (h : hotspot_detection d T G_s q a w = some rs) :
    ∀ i : ℕ, ∀ hi : i + 1 < rs.length,
      (rs.get ⟨i, by omega⟩).Tmax_C > (rs.get ⟨i + 1, hi⟩).Tmax_C ∨
        ((rs.get ⟨i, by omega⟩).Tmax_C = (rs.get ⟨i + 1, hi⟩).Tmax_C ∧
          (rs.get ⟨i, by omega⟩).DeltaT_C ≥ (rs.get ⟨i + 1, hi⟩).DeltaT_C) := by
  obtain ⟨tau, hnp, rfl⟩ := hotspot_detection_eq h
  intro i hi
  have hsorted := List.sorted_insertionSort rankLe
    (regionsOf d T w (cleanMask d G_s tau a))
  have hrel := List.pairwise_iff_get.mp hsorted ⟨i, by omega⟩ ⟨i + 1, hi⟩
    (by exact Nat.lt_succ_self i)
  rcases hrel with h1 | ⟨h1, h2⟩
  · exact Or.inl h1
  · exact Or.inr ⟨h1, h2⟩

/-- C7: for every output region, Tmax is the maximum original-grid
value over the region's pixels, Tmean is the arithmetic mean of the
same values (hence Tmean is at most Tmax), and the reported peak
location lies within the region's pixel set. -/

theorem region_measurements (d : Dims) (T G_s : Pix → ℚ) (q : ℚ)
    (a w : ℤ) (rs : List Region)
    (h : hotspot_detection d T G_s q a w = some rs) :
    ∀ reg ∈ rs, ∃ tau, npPercentile (fieldVals d G_s) q = some tau ∧
      ∃ S ∈ scanComps d (cleanMask d G_s tau a),
        reg.area_px = S.card ∧
        (∀ p ∈ S, T p ≤ reg.Tmax_C) ∧
        (∃ p ∈ S, T p = reg.Tmax_C) ∧
        reg.Tmean_C = (∑ p ∈ S, T p) / (S.card : ℚ) ∧
        reg.Tmean_C ≤ reg.Tmax_C ∧
        (reg.row, reg.col) ∈ S := by
  intro reg hreg
  obtain ⟨tau, hnp, S, hS, hregeq⟩ := hotspot_mem h hreg
  have hne : S.Nonempty := scanComps_nonempty hS
  refine ⟨tau, hnp, S, hS, ?_, ?_, ?_, ?_, ?_, ?_⟩
  · rw [hregeq, mkRegion_area]
  · intro p hp
    rw [hregeq]
    exact le_mkRegion_Tmax hp
  · rw [hregeq]
    exact mkRegion_Tmax_attained hne
  · rw [hregeq, mkRegion_Tmean_sum]
  · rw [hregeq]
    exact mkRegion_Tmean_le_Tmax hne
  · rw [hregeq]
    exact mkRegion_peak_mem hne

/-- The `Tbg_C` field computed by `mkRegion` coincides with the
specification's ring-median-with-fallbacks description for every
nonnegative ring width. -/

theorem mkRegion_Tbg {d : Dims} {T : Pix → ℚ} {w : ℤ} {lab : ℕ}
    {S : Finset Pix} (hw : 0 ≤ w) (hS : S ⊆ d.cells) :
    (mkRegion d T w lab S).Tbg_C = tbgSpec d T w.toNat S := by
  have hdm : dilate_mask d S w = dilateD d w.toNat S := by
    unfold dilate_mask
    rcases eq_or_lt_of_le hw with heq | hlt
    · rw [if_pos (le_of_eq heq.symm), ← heq]
      show S = dilateD d (0 : ℤ).toNat S
      rw [Int.toNat_zero, dilateD_zero hS]
    · rw [if_neg (not_le.mpr hlt)]
  have hTbg : (mkRegion d T w lab S).Tbg_C =
      (if ((coordsOf (dilate_mask d S w \ S)).map T).length = 0 then
        if 0 < (d.cells \ S).card then npMedian ((coordsOf (d.cells \ S)).map T)
        else npMedian (fieldVals d T)
      else npMedian ((coordsOf (dilate_mask d S w \ S)).map T)) := rfl
  rw [hTbg, hdm]
  unfold tbgSpec
  have hlen : ((coordsOf (dilateD d w.toNat S \ S)).map T).length =
      (dilateD d w.toNat S \ S).card := by
    rw [List.length_map, coordsOf_length]
  by_cases hR : (dilateD d w.toNat S \ S).Nonempty
  · rw [if_pos hR, if_neg]
    rw [hlen]
    exact Finset.card_ne_zero_of_mem hR.choose_spec
  · rw [if_neg hR, if_pos]
    · by_cases hO : (d.cells \ S).Nonempty
      · rw [if_pos hO, if_pos (Finset.card_pos.mpr hO)]
      · rw [if_neg hO, if_neg]
        rw [Finset.not_nonempty_iff_eq_empty] at hO
        rw [hO]
        simp
    · rw [hlen]
      rw [Finset.not_nonempty_iff_eq_empty] at hR
      rw [hR]
      simp

/-- C2: for every output region, Tbg is the median of original-grid
values over the ring obtained by dilating the region's own mask by a
disk of radius ringWidth and removing the region; an empty ring falls
back to the median of all pixels outside the region, and failing that
to the median of the whole grid.  (The source's additional all-NaN ring
test is vacuous: the grid invariant excludes missing values.) -/

theorem region_background (d : Dims) (T G_s : Pix → ℚ) (q : ℚ)
    (a w : ℤ) (rs : List Region) (hw : 0 ≤ w)
    (h : hotspot_detection d T G_s q a w = some rs) :
    ∀ reg ∈ rs, ∃ tau, npPercentile (fieldVals d G_s) q = some tau ∧
      ∃ S ∈ scanComps d (cleanMask d G_s tau a),
        reg = mkRegion d T w reg.ID S ∧
        reg.Tbg_C = tbgSpec d T w.toNat S := by
  intro reg hreg
  obtain ⟨tau, hnp, S, hS, hregeq⟩ := hotspot_mem h hreg
  have hSc : S ⊆ d.cells := by
    have hS2 : S ∈ scanComps d
        (remove_small_components
          (scanComps d (binary_morphology d (threshold_mask d G_s tau))) a) := hS
    obtain ⟨p, hp, rfl⟩ := scanComps_comp hS2
    exact comp_subset.trans
      (remove_small_subset.trans (fill_holes_subset_cells d _))
  refine ⟨tau, hnp, S, hS, hregeq, ?_⟩
  rw [hregeq]
  exact mkRegion_Tbg hw hSc

/-! Sorted-list facts used for the percentile endpoint claims. -/

theorem sortQ_sorted (l : List ℚ) : (sortQ l).Sorted (· ≤ ·) :=
  List.sorted_insertionSort _ l

theorem sortQ_perm (l : List ℚ) : (sortQ l).Perm l :=
  List.perm_insertionSort _ l

theorem mem_sortQ {l : List ℚ} {x : ℚ} : x ∈ sortQ l ↔ x ∈ l :=
  (sortQ_perm l).mem_iff

theorem sortQ_length (l : List ℚ) : (sortQ l).length = l.length :=
  (sortQ_perm l).length_eq

/-- The first element of the ascending sort is a lower bound. -/
theorem sortQ_first_le {l : List ℚ} {x : ℚ} (hx : x ∈ l) :
    (sortQ l).getD 0 0 ≤ x := by
  have hx2 : x ∈ sortQ l := mem_sortQ.mpr hx
  cases hs : sortQ l with
  | nil => rw [hs] at hx2; simp at hx2
  | cons y ys =>
    rw [hs] at hx2
    rcases List.mem_cons.mp hx2 with rfl | hmem
    · simp
    · have hsorted := sortQ_sorted l
      rw [hs] at hsorted
      simpa using List.rel_of_sorted_cons hsorted x hmem

/-- The last element of the ascending sort is an upper bound. -/
theorem le_sortQ_last {l : List ℚ} {x : ℚ} (hx : x ∈ l) :
    x ≤ (sortQ l).getD (l.length - 1) 0 := by
  have hx2 : x ∈ sortQ l := mem_sortQ.mpr hx
  have hlen : 0 < l.length := List.length_pos.mpr (List.ne_nil_of_mem hx)
  have hsl := sortQ_length l
  obtain ⟨i, hi⟩ := List.mem_iff_get.mp hx2
  have hlast : (sortQ l).getD (l.length - 1) 0 =
      (sortQ l).get ⟨l.length - 1, by omega⟩ := by
    rw [List.getD_eq_getElem?_getD, List.getElem?_eq_getElem (by omega)]
    rfl
  rw [hlast, ← hi]
  have hvi := i.isLt
  rcases Nat.lt_or_ge (i : ℕ) (l.length - 1) with hlt | hge
  · exact (sortQ_sorted l).rel_get_of_lt (by simpa using hlt)
  · have hieq : (i : ℕ) = l.length - 1 := by omega
    have heq : i = (⟨l.length - 1, by omega⟩ : Fin (sortQ l).length) := by
      apply Fin.ext
      simpa using hieq
    rw [heq]

theorem sortQ_last_mem {l : List ℚ} (hl : l ≠ []) :
    (sortQ l).getD (l.length - 1) 0 ∈ l := by
  have hlen : 0 < l.length := List.length_pos.mpr hl
  have hsl := sortQ_length l
  have h : (sortQ l).getD (l.length - 1) 0 =
      (sortQ l).get ⟨l.length - 1, by omega⟩ := by
    rw [List.getD_eq_getElem?_getD, List.getElem?_eq_getElem (by omega)]
    rfl
  rw [h]
  exact mem_sortQ.mp (List.get_mem _ _ _)

theorem fieldVals_ne_nil {d : Dims} {G : Pix → ℚ} (hH : 0 < d.H)
    (hW : 0 < d.W) : fieldVals d G ≠ [] := by
  have h0 : ((0, 0) : Pix) ∈ rowMajor d := mem_rowMajor.mpr ⟨hH, hW⟩
  exact List.ne_nil_of_mem (List.mem_map_of_mem G h0)

theorem mem_fieldVals {d : Dims} {G : Pix → ℚ} {p : Pix}
    (hp : p ∈ d.cells) : G p ∈ fieldVals d G :=
  List.mem_map_of_mem G (mem_rowMajor.mpr (mem_cells.mp hp))

theorem exists_of_mem_fieldVals {d : Dims} {G : Pix → ℚ} {x : ℚ}
    (hx : x ∈ fieldVals d G) : ∃ p ∈ d.cells, G p = x := by
  obtain ⟨p, hp, rfl⟩ := List.mem_map.mp hx
  exact ⟨p, mem_cells.mpr (mem_rowMajor.mp hp), rfl⟩

theorem npPercentile_some {l : List ℚ} {q : ℚ} (hl : l ≠ [])
    (h0 : 0 ≤ q) (h1 : q ≤ 100) : ∃ t, npPercentile l q = some t := by
  unfold npPercentile
  rw [if_neg]
  · exact ⟨_, rfl⟩
  · push_neg
    exact ⟨hl, h0, h1⟩

/-- Interpolation at an exact (natural) rank returns that order
statistic. -/

theorem percInterp_natCast (s : List ℚ) (n : ℕ) :
    percInterp s ((n : ℕ) : ℚ) = s.getD n 0 := by
  unfold percInterp
  have h1 : (((n : ℕ) : ℚ)).floor = (n : ℤ) := by
    have h2 : (((n : ℕ) : ℚ)).floor = ⌊((n : ℕ) : ℚ)⌋ := rfl
    rw [h2, Int.floor_natCast]
  rw [h1, Int.toNat_natCast]
  ring

/-- Percentile 0 is the minimum of the data. -/
theorem npPercentile_zero {l : List ℚ} (hl : l ≠ []) :
    npPercentile l 0 = some ((sortQ l).getD 0 0) := by
  unfold npPercentile
  rw [if_neg (by push_neg; exact ⟨hl, le_rfl, by norm_num⟩)]
  have hpos : (0 : ℚ) / 100 * (((sortQ l).length : ℚ) - 1) = ((0 : ℕ) : ℚ) := by
    norm_num
  rw [hpos, percInterp_natCast]

/-- Percentile 100 is the maximum of the data. -/
theorem npPercentile_hundred {l : List ℚ} (hl : l ≠ []) :
    npPercentile l 100 = some ((sortQ l).getD (l.length - 1) 0) := by
  unfold npPercentile
  rw [if_neg (by push_neg; exact ⟨hl, by norm_num, le_rfl⟩)]
  have hlen : 0 < l.length := List.length_pos.mpr hl
  have hpos : (100 : ℚ) / 100 * (((sortQ l).length : ℚ) - 1) =
      ((l.length - 1 : ℕ) : ℚ) := by
    rw [sortQ_length]
    push_cast [Nat.cast_sub hlen]
    ring
  rw [hpos, percInterp_natCast]

/-- C5: for every magnitude field and percentile in [0,100], the
thresholder computes `tau` by linear interpolation between closest
ranks of the sorted magnitudes, the candidate mask holds exactly the
pixels with magnitude at least `tau`, percentile 0 selects every pixel,
and percentile 100 selects exactly the pixels attaining the global
maximum magnitude. -/

theorem threshold_percentile (d : Dims) (G : Pix → ℚ) (q : ℚ)
    (hH : 0 < d.H) (hW : 0 < d.W) (h0 : 0 ≤ q) (h1 : q ≤ 100) :
    ∃ tau, npPercentile (fieldVals d G) q = some tau ∧
      (∀ p, p ∈ threshold_mask d G tau ↔ p ∈ d.cells ∧ tau ≤ G p) ∧
      (q = 0 → threshold_mask d G tau = d.cells) ∧
      (q = 100 → ∀ p, p ∈ threshold_mask d G tau ↔
        p ∈ d.cells ∧ ∀ r ∈ d.cells, G r ≤ G p) := by
  have hl : fieldVals d G ≠ [] := fieldVals_ne_nil hH hW
  obtain ⟨tau, htau⟩ := npPercentile_some hl h0 h1
  refine ⟨tau, htau, ?_, ?_, ?_⟩
  · intro p
    simp [threshold_mask]
  · rintro rfl
    rw [npPercentile_zero hl] at htau
    have htau2 : tau = (sortQ (fieldVals d G)).getD 0 0 := by
      exact (Option.some.injEq _ _).mp htau.symm
    apply Finset.Subset.antisymm
    · exact Finset.filter_subset _ _
    · intro p hp
      rw [threshold_mask, Finset.mem_filter]
      refine ⟨hp, ?_⟩
      rw [htau2]
      exact sortQ_first_le (mem_fieldVals hp)
  · rintro rfl p
    rw [npPercentile_hundred hl] at htau
    have htau2 : tau = (sortQ (fieldVals d G)).getD ((fieldVals d G).length - 1) 0 := by
      exact (Option.some.injEq _ _).mp htau.symm
    rw [threshold_mask, Finset.mem_filter]
    constructor
    · rintro ⟨hp, hge⟩
      refine ⟨hp, ?_⟩
      intro r hr
      calc G r ≤ (sortQ (fieldVals d G)).getD ((fieldVals d G).length - 1) 0 :=
            le_sortQ_last (mem_fieldVals hr)
        _ = tau := htau2.symm
        _ ≤ G p := hge
    · rintro ⟨hp, hmax⟩
      refine ⟨hp, ?_⟩
      rw [htau2]
      obtain ⟨r, hr, hre⟩ := exists_of_mem_fieldVals (sortQ_last_mem hl)
      rw [← hre]
      exact hmax r hr

/-- C4 (amended): the pipeline performs no upfront parameter
validation.  A call succeeds exactly when the percentile is inside
[0,100]: negative minimum area or ring width are accepted and produce
normal output, and an out-of-range percentile fails only inside the
percentile computation itself, after the smoothing and gradient
stages. -/

theorem no_early_validation (d : Dims) (T G_s : Pix → ℚ) (q : ℚ)
    (a w : ℤ) (hH : 0 < d.H) (hW : 0 < d.W) :
    (hotspot_detection d T G_s q a w).isSome = true ↔ (0 ≤ q ∧ q ≤ 100) := by
  unfold hotspot_detection
  cases hnp : npPercentile (fieldVals d G_s) q with
  | none =>
    simp only [hnp, Option.map_none', Option.isSome_none]
    constructor
    · intro hfalse
      exact absurd hfalse (by simp)
    · rintro ⟨h0, h1⟩
      exfalso
      unfold npPercentile at hnp
      rw [if_neg (by push_neg; exact ⟨fieldVals_ne_nil hH hW, h0, h1⟩)] at hnp
      exact Option.noConfusion hnp
  | some tau =>
    simp only [hnp, Option.map_some', Option.isSome_some, true_iff]
    unfold npPercentile at hnp
    split at hnp
    · exact Option.noConfusion hnp
    · rename_i hcond
      push_neg at hcond
      exact ⟨hcond.2.1, hcond.2.2⟩

/-- C8: when the foreground is empty after filtering, the pipeline does
not fail: it returns an empty ranked sequence. -/

theorem empty_foreground_no_error (d : Dims) (T G_s : Pix → ℚ) (q : ℚ)
    (a w : ℤ) (tau : ℚ)
    (htau : npPercentile (fieldVals d G_s) q = some tau)
    (hempty : cleanMask d G_s tau a = ∅) :
    hotspot_detection d T G_s q a w = some [] := by
  unfold hotspot_detection
  rw [htau]
  simp only [Option.map_some', Option.some.injEq]
  have hsc : scanComps d (∅ : Finset Pix) = [] := by
    rw [List.eq_nil_iff_forall_not_mem]
    intro S hS
    obtain ⟨p, hp, _⟩ := scanComps_comp hS
    simp at hp
  rw [regionsOf, hempty, hsc]
  simp [List.insertionSort]

set_option maxRecDepth 2000000 in
theorem hotspot_ranking_sorted_witness :
    hotspot_detection ex2Dims ex2T ex2G 97 1 1 = some [ex2R1, ex2R2] ∧
      (([ex2R1, ex2R2].get ⟨0, by decide⟩).Tmax_C >
          ([ex2R1, ex2R2].get ⟨1, by decide⟩).Tmax_C ∨
        (([ex2R1, ex2R2].get ⟨0, by decide⟩).Tmax_C =
            ([ex2R1, ex2R2].get ⟨1, by decide⟩).Tmax_C ∧
          ([ex2R1, ex2R2].get ⟨0, by decide⟩).DeltaT_C ≥
            ([ex2R1, ex2R2].get ⟨1, by decide⟩).DeltaT_C)) := by
  have h : hotspot_detection ex2Dims ex2T ex2G 97 1 1 = some [ex2R1, ex2R2] := by
    with_unfolding_all decide
  exact ⟨h, hotspot_ranking_sorted ex2Dims ex2T ex2G 97 1 1 [ex2R1, ex2R2] h 0
    (by decide)⟩

set_option maxRecDepth 2000000 in
theorem region_background_witness :
    (0 : ℤ) ≤ 1 ∧
      hotspot_detection exDims exT exG 97 1 1 = some [exRegion] ∧
      exRegion ∈ [exRegion] ∧
      (∃ tau, npPercentile (fieldVals exDims exG) 97 = some tau ∧
        ∃ S ∈ scanComps exDims (cleanMask exDims exG tau 1),
          exRegion = mkRegion exDims exT 1 exRegion.ID S ∧
          exRegion.Tbg_C = tbgSpec exDims exT (1 : ℤ).toNat S) := by
  have h : hotspot_detection exDims exT exG 97 1 1 = some [exRegion] := by
    with_unfolding_all decide
  exact ⟨by decide, h, by simp,
    region_background exDims exT exG 97 1 1 [exRegion] (by decide) h
      exRegion (by simp)⟩

set_option maxRecDepth 2000000 in
theorem region_measurements_witness :
    hotspot_detection exDims exT exG 97 1 1 = some [exRegion] ∧
      exRegion ∈ [exRegion] ∧
      (∃ tau, npPercentile (fieldVals exDims exG) 97 = some tau ∧
        ∃ S ∈ scanComps exDims (cleanMask exDims exG tau 1),
          exRegion.area_px = S.card ∧
          (∀ p ∈ S, exT p ≤ exRegion.Tmax_C) ∧
          (∃ p ∈ S, exT p = exRegion.Tmax_C) ∧
          exRegion.Tmean_C = (∑ p ∈ S, exT p) / (S.card : ℚ) ∧
          exRegion.Tmean_C ≤ exRegion.Tmax_C ∧
          (exRegion.row, exRegion.col) ∈ S) := by
  have h : hotspot_detection exDims exT exG 97 1 1 = some [exRegion] := by
    with_unfolding_all decide
  exact ⟨h, by simp,
    region_measurements exDims exT exG 97 1 1 [exRegion] h exRegion (by simp)⟩

set_option maxRecDepth 2000000 in
theorem region_area_at_least_min_witness :
    (1 : ℤ) ≤ 1 ∧
      hotspot_detection exDims exT exG 97 1 1 = some [exRegion] ∧
      (1 : ℤ) ≤ (exRegion.area_px : ℤ) := by
  have h : hotspot_detection exDims exT exG 97 1 1 = some [exRegion] := by
    with_unfolding_all decide
  exact ⟨le_rfl, h,
    region_area_at_least_min exDims exT exG 97 1 1 [exRegion] le_rfl h
      exRegion (by simp)⟩

set_option maxRecDepth 2000000 in
theorem no_early_validation_counterexample :
    (-1 : ℤ) < 1 ∧ (-1 : ℤ) < 0 ∧
      hotspot_detection exDims exT exG 97 (-1) (-1) = some [exRegion] :=
  ⟨by decide, by decide, by with_unfolding_all decide⟩

theorem no_early_validation_witness :
    0 < exDims.H ∧ 0 < exDims.W ∧
      ((hotspot_detection exDims exT exG 97 (-1) (-1)).isSome = true ↔
        (0 ≤ (97 : ℚ) ∧ (97 : ℚ) ≤ 100)) :=
  ⟨by decide, by decide,
    no_early_validation exDims exT exG 97 (-1) (-1) (by decide) (by decide)⟩

theorem threshold_percentile_witness :
    0 < exDims.H ∧ 0 < exDims.W ∧ (0 : ℚ) ≤ 97 ∧ (97 : ℚ) ≤ 100 ∧
      (∃ tau, npPercentile (fieldVals exDims exG) 97 = some tau ∧
        (∀ p, p ∈ threshold_mask exDims exG tau ↔
          p ∈ exDims.cells ∧ tau ≤ exG p) ∧
        ((97 : ℚ) = 0 → threshold_mask exDims exG tau = exDims.cells) ∧
        ((97 : ℚ) = 100 → ∀ p, p ∈ threshold_mask exDims exG tau ↔
          p ∈ exDims.cells ∧ ∀ r ∈ exDims.cells, exG r ≤ exG p)) :=
  ⟨by decide, by decide, by norm_num, by norm_num,
    threshold_percentile exDims exG 97 (by decide) (by decide)
      (by norm_num) (by norm_num)⟩

theorem label_components_spec_witness :
    ({((0 : ℕ), (0 : ℕ)), ((0 : ℕ), (1 : ℕ))} : Finset Pix) ⊆ exSmall.cells ∧
      ((∀ p ∈ ({((0 : ℕ), (0 : ℕ)), ((0 : ℕ), (1 : ℕ))} : Finset Pix),
          0 < (label_components exSmall {((0 : ℕ), (0 : ℕ)), ((0 : ℕ), (1 : ℕ))}).1 p) ∧
        (∀ p, p ∉ ({((0 : ℕ), (0 : ℕ)), ((0 : ℕ), (1 : ℕ))} : Finset Pix) →
          (label_components exSmall {((0 : ℕ), (0 : ℕ)), ((0 : ℕ), (1 : ℕ))}).1 p = 0) ∧
        (∀ p ∈ ({((0 : ℕ), (0 : ℕ)), ((0 : ℕ), (1 : ℕ))} : Finset Pix),
          ∀ q ∈ ({((0 : ℕ), (0 : ℕ)), ((0 : ℕ), (1 : ℕ))} : Finset Pix),
          ((label_components exSmall {((0 : ℕ), (0 : ℕ)), ((0 : ℕ), (1 : ℕ))}).1 p =
              (label_components exSmall {((0 : ℕ), (0 : ℕ)), ((0 : ℕ), (1 : ℕ))}).1 q ↔
            Conn {((0 : ℕ), (0 : ℕ)), ((0 : ℕ), (1 : ℕ))} p q)) ∧
        (∃ C : Finset (Finset Pix),
          (∀ S, S ∈ C ↔ isComponent {((0 : ℕ), (0 : ℕ)), ((0 : ℕ), (1 : ℕ))} S) ∧
          (label_components exSmall {((0 : ℕ), (0 : ℕ)), ((0 : ℕ), (1 : ℕ))}).2 = C.card) ∧
        (({((0 : ℕ), (0 : ℕ)), ((0 : ℕ), (1 : ℕ))} : Finset Pix) = ∅ →
          (label_components exSmall {((0 : ℕ), (0 : ℕ)), ((0 : ℕ), (1 : ℕ))}).2 = 0)) := by
  have hm : ({((0 : ℕ), (0 : ℕ)), ((0 : ℕ), (1 : ℕ))} : Finset Pix) ⊆ exSmall.cells := by
    decide
  exact ⟨hm, label_components_spec exSmall _ hm⟩

theorem region_filter_idempotent_witness :
    ({((0 : ℕ), (0 : ℕ)), ((1 : ℕ), (1 : ℕ))} : Finset Pix) ⊆ exSmall.cells ∧
      remove_small_components
          (scanComps exSmall
            (remove_small_components
              (scanComps exSmall
                ({((0 : ℕ), (0 : ℕ)), ((1 : ℕ), (1 : ℕ))} : Finset Pix)) 1)) 1 =
        remove_small_components
          (scanComps exSmall
            ({((0 : ℕ), (0 : ℕ)), ((1 : ℕ), (1 : ℕ))} : Finset Pix)) 1 := by
  have hm : ({((0 : ℕ), (0 : ℕ)), ((1 : ℕ), (1 : ℕ))} : Finset Pix) ⊆ exSmall.cells := by
    decide
  exact ⟨hm, region_filter_idempotent exSmall _ 1 hm⟩

set_option maxRecDepth 200000 in
theorem empty_foreground_no_error_witness :
    npPercentile (fieldVals exSmall exG0) 97 = some 0 ∧
      cleanMask exSmall exG0 0 50 = ∅ ∧
      hotspot_detection exSmall exT0 exG0 97 50 5 = some [] := by
  have h1 : npPercentile (fieldVals exSmall exG0) 97 = some 0 := by
    with_unfolding_all decide
  have h2 : cleanMask exSmall exG0 0 50 = ∅ := by
    with_unfolding_all decide
  exact ⟨h1, h2, empty_foreground_no_error exSmall exT0 exG0 97 50 5 0 h1 h2⟩

end Thermal
